import Mathlib

/-!
Verification of the shape-editor document model (`src/main.py`, draft move
operations from `src/drafts/ig.py`).

Modelling conventions:
* Python floats and ints are modelled as `Int`.  The coordinates handled by the
  program are numerals; Python's exact `str`/`float` round trip on them is
  modelled by the canonical decimal rendering `intStr` and its inverse
  `parseInt?` below.
* Python strings are modelled as `List Char` (`Str`); `str.split`, `str.strip`
  and `'\n'.join` are modelled by the explicit list functions `splitOnChar`,
  `stripStr`, `wsSplit` and `joinChar`.
* The `_bb` field of `Line`/`Rectangle`/`Group` is a derived value maintained by
  `__post_init__` / `add_to_group`; in the model it is the function `Shape.bb`.
  For the staleness questions about `move` the stored field is modelled
  explicitly by `MLine`/`MRect`.
* Python exceptions (`IndexError`, `ValueError`, `TypeError`, `AttributeError`)
  are modelled by the error type `PErr` inside `Except`.
-/

/-- `Point` dataclass from `src/main.py`: x, y coordinates. -/
structure Point where
  x : Int
  y : Int
deriving DecidableEq, Repr

/-- `Colour` dataclass from `src/main.py`: four channels k, r, g, b. -/
structure Colour where
  k : Int
  r : Int
  g : Int
  b : Int
deriving DecidableEq, Repr

/-- `Corner` enum from `src/main.py`: values are the characters r and s. -/
inductive Corner where
  | rounded
  | square
deriving DecidableEq, Repr

/-- `BoundingBox` dataclass from `src/main.py`, field order as in the source. -/
structure BoundingBox where
  bottom_left : Point
  bottom_right : Point
  top_left : Point
  top_right : Point
  in_use : Bool
deriving DecidableEq, Repr

/-- The default `BoundingBox()`: all corner points (0,0), `in_use = False`. -/
def bbDefault : BoundingBox :=
  ⟨⟨0, 0⟩, ⟨0, 0⟩, ⟨0, 0⟩, ⟨0, 0⟩, false⟩

/-- `BoundingBox.union` from `src/main.py` lines 135-159, translated verbatim:
if the argument is unused return `self`, if `self` is unused return the
argument, otherwise combine component-wise.  Note the source computes
`top_right.y` with `max` (and `bottom_left.y` with `max`, matching screen
coordinates where y grows downward). -/
def BoundingBox.union (self bb : BoundingBox) : BoundingBox :=
  if bb.in_use = false then self
  else if self.in_use = false then bb
  else
    { top_left := ⟨min self.top_left.x bb.top_left.x,
                   min self.top_left.y bb.top_left.y⟩
      bottom_left := ⟨min self.bottom_left.x bb.bottom_left.x,
                      max self.bottom_left.y bb.bottom_left.y⟩
      bottom_right := ⟨max self.bottom_right.x bb.bottom_right.x,
                       max self.bottom_right.y bb.bottom_right.y⟩
      top_right := ⟨max self.top_right.x bb.top_right.x,
                    max self.top_right.y bb.top_right.y⟩
      in_use := true }

/-- `BoundingBox.contains` from `src/main.py` lines 161-167: unused boxes
contain everything; otherwise half-open comparisons against the stored
corners. -/
def BoundingBox.contains (self : BoundingBox) (pos : Point) : Bool :=
  if self.in_use = false then true
  else
    decide (self.bottom_left.x ≤ pos.x ∧ pos.x < self.top_right.x) &&
    decide (self.top_left.y ≤ pos.y ∧ pos.y < self.bottom_right.y)

/-- The local `dot` helper inside `Line.contains`. -/
def dotP (v w : Point) : Int := v.x * w.x + v.y * w.y

/-- The local `cross` helper inside `Line.contains`, translated verbatim from
the source, which computes `v.x * w.y + v.y * w.x` (with a plus sign). -/
def crossP (v w : Point) : Int := v.x * w.y + v.y * w.x

/-- `Line.contains` from `src/main.py` lines 205-214: with
`v = pos - start` and `w = end - pos`, the result is
`dot(v, w) > 0 and cross(v, w) == 0`. -/
def lineContains (start stop pos : Point) : Bool :=
  let v : Point := ⟨pos.x - start.x, pos.y - start.y⟩
  let w : Point := ⟨stop.x - pos.x, stop.y - pos.y⟩
  decide (dotP v w > 0) && decide (crossP v w = 0)

/-- The bounding box computed by `Line.update_bounding_box`
(`src/main.py` lines 184-193). -/
def lineBB (start stop : Point) : BoundingBox :=
  { top_left := ⟨min start.x stop.x, min start.y stop.y⟩
    top_right := ⟨max start.x stop.x, min start.y stop.y⟩
    bottom_left := ⟨min start.x stop.x, max start.y stop.y⟩
    bottom_right := ⟨max start.x stop.x, max start.y stop.y⟩
    in_use := true }

/-- The bounding box computed by `Rectangle.update_bounding_box`
(`src/main.py` lines 229-234): the four corners are taken directly from
`upper_left`/`lower_right` with no min/max. -/
def rectBB (upper_left lower_right : Point) : BoundingBox :=
  { top_left := upper_left
    top_right := ⟨lower_right.x, upper_left.y⟩
    bottom_right := lower_right
    bottom_left := ⟨upper_left.x, lower_right.y⟩
    in_use := true }

/-- The closed shape variant of `src/main.py`: `Line`, `Rectangle`, `Group`.
The `_bb` field of the dataclasses is derived (recomputed by `__post_init__`
and `add_to_group` from the listed geometry) and is modelled by the function
`Shape.bb`. -/
inductive Shape where
  | line (start stop : Point) (color : Colour)
  | rect (upper_left lower_right : Point) (color : Colour) (corner : Corner)
  | group (members : List Shape)
deriving Repr

mutual

/-- Derived `_bb` of a shape: `update_bounding_box` for lines and rectangles;
for a group, the sequential union performed by `Group.create_group` /
`add_to_group` starting from the default box. -/
def Shape.bb : Shape → BoundingBox
  | .line s e _ => lineBB s e
  | .rect ul lr _ _ => rectBB ul lr
  | .group ms => bbFold ms bbDefault
termination_by s => sizeOf s

/-- Sequential `union` of the members' boxes, as performed by repeated
`add_to_group` calls. -/
def bbFold : List Shape → BoundingBox → BoundingBox
  | [], acc => acc
  | s :: rest, acc => bbFold rest (acc.union s.bb)
termination_by l _ => sizeOf l

end

/-- `contains` dispatch over the shape variant: `Line.contains` for lines,
bounding-box containment for rectangles and groups (`src/main.py` lines
245-246 and 269-270). -/
def Shape.contains (s : Shape) (pos : Point) : Bool :=
  match s with
  | .line a b _ => lineContains a b pos
  | .rect .. => s.bb.contains pos
  | .group .. => s.bb.contains pos

/-- Whether a shape is a `Group` (the `isinstance(obj, Group)` test). -/
def Shape.isGroup : Shape → Bool
  | .group _ => true
  | _ => false

/-! ## Strings, numbers and tokenisation -/

/-- Python strings are modelled as lists of characters. -/
abbrev Str := List Char

/-- The space character (without using character-literal syntax). -/
def spaceChar : Char := Char.ofNat 32

/-- The newline character. -/
def nlChar : Char := Char.ofNat 10

/-- The comma character. -/
def commaChar : Char := Char.ofNat 44

/-- The minus-sign character. -/
def minusChar : Char := Char.ofNat 45

/-- `s.split(sep)` in Python: split on every occurrence of `sep`, keeping
empty pieces (so `"".split(sep) = [""]`). -/
def splitOnChar (sep : Char) : Str → List Str
  | [] => [[]]
  | c :: rest =>
    match splitOnChar sep rest with
    | [] => [[]]
    | t :: ts => if c = sep then [] :: t :: ts else (c :: t) :: ts

/-- `sep.join(pieces)` in Python. -/
def joinChar (sep : Char) : List Str → Str
  | [] => []
  | [x] => x
  | x :: xs => x ++ sep :: joinChar sep xs

/-- `s.strip()` in Python, for space characters. -/
def stripStr (l : Str) : Str :=
  ((l.dropWhile (fun c => c = spaceChar)).reverse.dropWhile
    (fun c => c = spaceChar)).reverse

/-- `s.split()` in Python (no argument): split on whitespace runs and drop
the empty pieces. -/
def wsSplit (l : Str) : List Str :=
  (splitOnChar spaceChar l).filter (fun t => !t.isEmpty)

/-- The decimal digit character for a digit value. -/
def digitChar (d : Nat) : Char := Char.ofNat (48 + d)

/-- The digit value of a character, if it is a decimal digit. -/
def charVal (c : Char) : Option Nat :=
  if 48 ≤ c.toNat ∧ c.toNat ≤ 57 then some (c.toNat - 48) else none

/-- Digit values of a string of digit characters, failing on any
non-digit. -/
def charsVal : Str → Option (List Nat)
  | [] => some []
  | c :: r =>
    match charVal c, charsVal r with
    | some d, some ds => some (d :: ds)
    | _, _ => none

/-- Canonical decimal rendering of a natural number (most significant digit
first), modelling Python's `str` on the integral values the program
handles. -/
def natStr (n : Nat) : Str :=
  if n = 0 then [digitChar 0]
  else ((Nat.digits 10 n).map digitChar).reverse

/-- Canonical decimal rendering of an integer. -/
def intStr (i : Int) : Str :=
  if i < 0 then minusChar :: natStr i.natAbs else natStr i.natAbs

/-- Parse a string of decimal digits into a natural number; models Python's
`int`/`float` on non-negative numerals.  Fails on the empty string or any
non-digit character. -/
def parseNat? (t : Str) : Option Nat :=
  if t = [] then none
  else (charsVal t).map (fun vs => Nat.ofDigits 10 vs.reverse)

/-- Parse an optionally minus-signed decimal numeral; models Python's
`int()`/`float()` on the numerals the program reads and writes. -/
def parseInt? : Str → Option Int
  | [] => none
  | c :: rest =>
    if c = minusChar then (parseNat? rest).map (fun n => -(Int.ofNat n))
    else (parseNat? (c :: rest)).map Int.ofNat

/-! ## Serialiser (`__str__` methods and `drawing_to_string`) -/

/-- `str(Point)`: the two coordinates joined by a space. -/
def pointStr (p : Point) : Str :=
  joinChar spaceChar [intStr p.x, intStr p.y]

/-- `str(Colour)`: the four channels joined by commas. -/
def colourStr (c : Colour) : Str :=
  joinChar commaChar [intStr c.k, intStr c.r, intStr c.g, intStr c.b]

/-- `str(Corner)`: the enum value character (r or s). -/
def cornerStr : Corner → Str
  | .rounded => "r".data
  | .square => "s".data

/-- The keyword token of a line shape. -/
def lineKw : Str := "line".data

/-- The keyword token of a rectangle shape. -/
def rectKw : Str := "rect".data

/-- The group-opening line. -/
def beginKw : Str := "begin".data

/-- The group-closing line. -/
def endKw : Str := "end".data

/-- `Line.__str__`: space-join of the keyword and the non-underscore fields
`start`, `end`, `color` (`src/main.py` lines 195-196). -/
def lineStr1 (a b : Point) (c : Colour) : Str :=
  joinChar spaceChar [lineKw, pointStr a, pointStr b, colourStr c]

/-- `Rectangle.__str__`: space-join of the keyword and the fields
`upper_left`, `lower_right`, `color`, `corner` (`src/main.py` lines
236-237). -/
def rectStr1 (a b : Point) (c : Colour) (k : Corner) : Str :=
  joinChar spaceChar [rectKw, pointStr a, pointStr b, colourStr c, cornerStr k]

mutual

/-- `str` of a shape: one line for a `Line`/`Rectangle`; a `Group` is
`begin`, its members' strings, `end`, joined by newlines
(`src/main.py` lines 253-254). -/
def shapeStr : Shape → Str
  | .line a b c => lineStr1 a b c
  | .rect a b c k => rectStr1 a b c k
  | .group ms => joinChar nlChar (beginKw :: strList ms ++ [endKw])
termination_by s => sizeOf s

/-- The list of the members' serialised strings. -/
def strList : List Shape → List Str
  | [] => []
  | s :: rest => shapeStr s :: strList rest
termination_by l => sizeOf l

end

mutual

/-- The individual text lines of a shape's serialisation (the serialised
string split at its newlines). -/
def shapeLines : Shape → List Str
  | .line a b c => [lineStr1 a b c]
  | .rect a b c k => [rectStr1 a b c k]
  | .group ms => beginKw :: seqLines ms ++ [endKw]
termination_by s => sizeOf s

/-- The concatenated text lines of a sequence of shapes. -/
def seqLines : List Shape → List Str
  | [] => []
  | s :: rest => shapeLines s ++ seqLines rest
termination_by l => sizeOf l

end

/-- `MainWindow.drawing_to_string` for the DRW format (`src/main.py` lines
696-699): newline-join of the objects' strings. -/
def drawing_to_string (objects : List Shape) : Str :=
  joinChar nlChar (strList objects)

/-! ## Parser (`parse_drw` and helpers, `src/main.py` lines 652-694) -/

/-- The Python exceptions a parse can raise: `IndexError` (missing token or
`tokens[0]` of a blank line), `ValueError` (non-numeric token, bad corner
character), `TypeError` (wrong `Colour` arity), `AttributeError`
(`None`, produced by an unknown keyword, reaching `add_to_group`), plus a
fuel marker never reached from `parse_drw`'s initial fuel. -/
inductive PErr where
  | indexError
  | valueError
  | typeError
  | attrError
  | outOfFuel
deriving DecidableEq, Repr

/-- `tokens[i]`, raising `IndexError` when out of range. -/
def tokAt (ts : List Str) (i : Nat) : Except PErr Str :=
  match ts[i]? with
  | some t => .ok t
  | none => .error .indexError

/-- `float(token)` / `int(token)`: `ValueError` on a non-numeral. -/
def parseNumE (t : Str) : Except PErr Int :=
  match parseInt? t with
  | some v => .ok v
  | none => .error .valueError

/-- `float(tokens[i])` with the `IndexError`/`ValueError` of the source. -/
def tokNum (ts : List Str) (i : Nat) : Except PErr Int :=
  (tokAt ts i).bind parseNumE

/-- `map(int, token.split(','))` applied in order, propagating the first
`ValueError`. -/
def numsOf : List Str → Except PErr (List Int)
  | [] => .ok []
  | t :: r =>
    (parseNumE t).bind fun v => (numsOf r).bind fun vs => .ok (v :: vs)

/-- `Colour(*map(int, token.split(',')))`: a `TypeError` unless exactly four
channels are present. -/
def parseColour (t : Str) : Except PErr Colour :=
  match numsOf (splitOnChar commaChar t) with
  | .error e => .error e
  | .ok [k, r, g, b] => .ok ⟨k, r, g, b⟩
  | .ok _ => .error .typeError

/-- `Corner(tokens[6])`: `ValueError` unless the token is r or s. -/
def parseCorner (t : Str) : Except PErr Corner :=
  if t = "r".data then .ok .rounded
  else if t = "s".data then .ok .square
  else .error .valueError

/-- The nested `parse_line` of `parse_drw` (`src/main.py` lines 657-669):
split the line into tokens, dispatch on `tokens[0]`; an unknown keyword
returns `None` (modelled as `ok none`), which the caller later stores in the
group. -/
def parse_line (line : Str) : Except PErr (Option Shape) :=
  let ts := wsSplit line
  (tokAt ts 0).bind fun t0 =>
  if t0 = lineKw then
    (tokNum ts 1).bind fun x1 =>
    (tokNum ts 2).bind fun y1 =>
    (tokNum ts 3).bind fun x2 =>
    (tokNum ts 4).bind fun y2 =>
    ((tokAt ts 5).bind parseColour).bind fun c =>
    .ok (some (.line ⟨x1, y1⟩ ⟨x2, y2⟩ c))
  else if t0 = rectKw then
    (tokNum ts 1).bind fun x1 =>
    (tokNum ts 2).bind fun y1 =>
    (tokNum ts 3).bind fun x2 =>
    (tokNum ts 4).bind fun y2 =>
    ((tokAt ts 5).bind parseColour).bind fun c =>
    (if ts.length > 6 then (tokAt ts 6).bind parseCorner
     else .ok Corner.square).bind fun k =>
    .ok (some (.rect ⟨x1, y1⟩ ⟨x2, y2⟩ c k))
  else .ok none

/-- `Group().create_group(current_group)`: `add_to_group` touches each
stored element's `_bb`, so a `None` left by an unknown keyword raises
`AttributeError`; otherwise the members are exactly the collected shapes
(their box is the derived `Shape.bb`). -/
def createGroup : List (Option Shape) → Except PErr (List Shape)
  | [] => .ok []
  | none :: _ => .error .attrError
  | some s :: rest => (createGroup rest).map (s :: ·)

/-- The nested `parse_group` of `parse_drw` (`src/main.py` lines 671-686),
with an explicit fuel argument standing for the recursion (the fuel used by
`parse_drw` is always sufficient, see `parseGroup_fuel_irrel`):
loop over the lines, recursing at `begin`, returning the created group and
the remaining lines at `end`, and creating the group from whatever was
collected when the lines run out. -/
def parseGroup : Nat → List (Option Shape) → List Str →
    Except PErr (List Shape × List Str)
  | 0, _, _ => .error .outOfFuel
  | _ + 1, current, [] => (createGroup current).map (·, [])
  | fuel + 1, current, l :: rest =>
    let line := stripStr l
    if line = beginKw then
      match parseGroup fuel [] rest with
      | .error e => .error e
      | .ok (sub, rem) => parseGroup fuel (current ++ [some (.group sub)]) rem
    else if line = endKw then
      (createGroup current).map (·, rest)
    else
      match parse_line line with
      | .error e => .error e
      | .ok s? => parseGroup fuel (current ++ [s?]) rest

/-- `parseGroup` at its canonical, always-sufficient fuel. -/
def parseGroupN (current : List (Option Shape)) (lines : List Str) :
    Except PErr (List Shape × List Str) :=
  parseGroup (lines.length + 1) current lines

/-- `parse_group(file_contents.split('\n'))[0].members`: the top-level call
of `parse_drw` keeps the members of the returned group and drops the
returned remaining lines (`src/main.py` line 688). -/
def parseLinesTop (lines : List Str) : Except PErr (List Shape) :=
  (parseGroupN [] lines).map (·.1)

/-- `parse_drw` (`src/main.py` lines 656-688): split the contents at
newlines and parse the resulting line list. -/
def parse_drw (contents : Str) : Except PErr (List Shape) :=
  parseLinesTop (splitOnChar nlChar contents)

/-- `MainWindow.open_file` (`src/main.py` lines 626-639): parse the file
contents and display the result; on any exception keep the previously
displayed objects. -/
def open_file (current : List Shape) (contents : Str) : List Shape :=
  match parse_drw contents with
  | .ok objects => objects
  | .error _ => current

/-! ## `ungroup_all_objects` and the move operations -/

/-- `sizeOf` of every shape is positive. -/
theorem shape_sizeOf_pos (s : Shape) : 0 < sizeOf s := by
  cases s <;> simp

/-- The summed sizes of a list's elements are bounded by the list's size. -/
theorem sumMap_sizeOf_le (ms : List Shape) :
    (ms.map (fun s => sizeOf s)).sum ≤ sizeOf ms := by
  induction ms with
  | nil => simp
  | cons a l ih => simp only [List.map_cons, List.sum_cons]; simp; omega

/-- `DrawingArea.ungroup_all_objects` (`src/main.py` lines 558-563) as a
worklist: Python's `for obj in self.objects` keeps indexing into the list
while `self.objects.extend(obj.members)` appends to it, so every appended
member is visited in turn.  `done` is the already-visited prefix; a visited
group is left in place with `members = []` (and its box unused), and its
members are appended at the end of the list. -/
def ungroupLoop : List Shape → List Shape → List Shape
  | done, [] => done
  | done, .group ms :: rest => ungroupLoop (done ++ [.group []]) (rest ++ ms)
  | done, s :: rest => ungroupLoop (done ++ [s]) rest
termination_by _ queue => (queue.map (fun s => sizeOf s)).sum
decreasing_by
  · simp only [List.map_append, List.sum_append, List.map_cons, List.sum_cons]
    have h1 := sumMap_sizeOf_le ms
    simp only [Shape.group.sizeOf_spec]
    omega
  · simp only [List.map_cons, List.sum_cons]
    have h1 := shape_sizeOf_pos s
    omega

/-- `ungroup_all_objects` run on an object list. -/
def ungroup_all (objects : List Shape) : List Shape :=
  ungroupLoop [] objects

mutual

/-- The non-`Group` leaf shapes of a shape, in structural order. -/
def Shape.leaves : Shape → List Shape
  | .line a b c => [.line a b c]
  | .rect a b c k => [.rect a b c k]
  | .group ms => leavesList ms
termination_by s => sizeOf s

/-- The non-`Group` leaf shapes of a shape sequence, in structural order. -/
def leavesList : List Shape → List Shape
  | [] => []
  | s :: rest => s.leaves ++ leavesList rest
termination_by l => sizeOf l

end

/-- `Line` of `src/main.py` with its stored `_bb` field made explicit, for
reasoning about mutation that bypasses `update_bounding_box`. -/
structure MLine where
  start : Point
  stop : Point
  color : Colour
  _bb : BoundingBox
deriving DecidableEq, Repr

/-- Construction of a `Line`: `__post_init__` calls
`update_bounding_box`. -/
def mkMLine (a b : Point) (c : Colour) : MLine :=
  ⟨a, b, c, lineBB a b⟩

/-- `Line.move` from `src/drafts/ig.py` lines 125-129 applied to the stored
representation: translate `start` and `end`; nothing else is touched. -/
def MLine.move (l : MLine) (dx dy : Int) : MLine :=
  { l with start := ⟨l.start.x + dx, l.start.y + dy⟩
           stop := ⟨l.stop.x + dx, l.stop.y + dy⟩ }

/-- `Rectangle` of `src/main.py` with its stored `_bb` field explicit. -/
structure MRect where
  upper_left : Point
  lower_right : Point
  color : Colour
  corner : Corner
  _bb : BoundingBox
deriving DecidableEq, Repr

/-- Construction of a `Rectangle`: `__post_init__` calls
`update_bounding_box`. -/
def mkMRect (a b : Point) (c : Colour) (k : Corner) : MRect :=
  ⟨a, b, c, k, rectBB a b⟩

/-- `Rectangle.move` from `src/drafts/ig.py` lines 153-157 applied to the
stored representation: translate the two corners; colour, corner style and
the stored box are untouched. -/
def MRect.move (r : MRect) (dx dy : Int) : MRect :=
  { r with upper_left := ⟨r.upper_left.x + dx, r.upper_left.y + dy⟩
           lower_right := ⟨r.lower_right.x + dx, r.lower_right.y + dy⟩ }

/-- The draft drawing-object variant of `src/drafts/ig.py` (`Line`,
`Rectangle`, `CompositeObject`). -/
inductive IgShape where
  | line (start stop : Point) (color : Colour)
  | rectangle (start stop : Point) (color : Colour) (corner : Corner)
  | composite (children : List IgShape)
deriving Repr

mutual

/-- `move(dx, dy)` of the draft variant: translate the endpoints of a line
or rectangle; a composite moves every child (`src/drafts/ig.py` lines
125-129, 153-157, 194-196). -/
def IgShape.move : IgShape → Int → Int → IgShape
  | .line a b c, dx, dy =>
    .line ⟨a.x + dx, a.y + dy⟩ ⟨b.x + dx, b.y + dy⟩ c
  | .rectangle a b c k, dx, dy =>
    .rectangle ⟨a.x + dx, a.y + dy⟩ ⟨b.x + dx, b.y + dy⟩ c k
  | .composite cs, dx, dy => .composite (igMoveList cs dx dy)
termination_by s => sizeOf s

/-- Move every child of a composite. -/
def igMoveList : List IgShape → Int → Int → List IgShape
  | [], _, _ => []
  | c :: rest, dx, dy => c.move dx dy :: igMoveList rest dx dy
termination_by l => sizeOf l

end

/-! ## Split / join / strip lemmas -/

/-- Splitting a separator-free string yields the string itself. -/
theorem splitOnChar_of_not_mem {sep : Char} {t : Str} (h : sep ∉ t) :
    splitOnChar sep t = [t] := by
  induction t with
  | nil => rfl
  | cons c r ih =>
    have hc : c ≠ sep := fun hc => h (hc ▸ List.mem_cons_self c r)
    have hr : sep ∉ r := fun hr => h (List.mem_cons_of_mem _ hr)
    simp [splitOnChar, ih hr, hc]

/-- Splitting prefix-free text followed by the separator peels one piece. -/
theorem splitOnChar_append_cons {sep : Char} {t rest : Str} (h : sep ∉ t) :
    splitOnChar sep (t ++ sep :: rest) = t :: splitOnChar sep rest := by
  induction t with
  | nil =>
    simp only [List.nil_append, splitOnChar]
    match hr : splitOnChar sep rest with
    | [] => simp
    | x :: xs => simp
  | cons c r ih =>
    have hc : c ≠ sep := fun hc => h (hc ▸ List.mem_cons_self c r)
    have hr : sep ∉ r := fun hr => h (List.mem_cons_of_mem _ hr)
    simp only [List.cons_append, splitOnChar, List.append_eq]
    rw [ih hr]
    simp [hc]

/-- Splitting is a left inverse of joining, for nonempty piece lists whose
pieces do not contain the separator. -/
theorem splitOnChar_joinChar {sep : Char} :
    ∀ {ts : List Str}, ts ≠ [] → (∀ t ∈ ts, sep ∉ t) →
      splitOnChar sep (joinChar sep ts) = ts
  | [], h, _ => absurd rfl h
  | [t], _, hf => by
    simp only [joinChar]
    exact splitOnChar_of_not_mem (hf t (List.mem_singleton_self t))
  | t :: t' :: ts, _, hf => by
    have ht : sep ∉ t := hf t (List.mem_cons_self _ _)
    simp only [joinChar, splitOnChar_append_cons ht]
    have := @splitOnChar_joinChar sep (t' :: ts) (by simp)
      (fun u hu => hf u (List.mem_cons_of_mem _ hu))
    rw [this]

/-- Joining distributes over appending nonempty piece lists. -/
theorem joinChar_append {sep : Char} :
    ∀ {xs ys : List Str}, xs ≠ [] → ys ≠ [] →
      joinChar sep (xs ++ ys) = joinChar sep xs ++ sep :: joinChar sep ys
  | [], _, hx, _ => absurd rfl hx
  | [x], ys, _, hy => by
    cases ys with
    | nil => exact absurd rfl hy
    | cons y ys => simp [joinChar]
  | x :: x' :: xs, ys, _, hy => by
    have ih := @joinChar_append sep (x' :: xs) ys (by simp) hy
    simp only [List.cons_append] at ih
    simp only [List.cons_append, joinChar, List.append_eq]
    rw [ih]
    simp

/-- Joining the piecewise joins equals joining the flattened pieces, when
every group of pieces is nonempty. -/
theorem joinChar_flatten {sep : Char} :
    ∀ {xss : List (List Str)}, (∀ xs ∈ xss, xs ≠ []) →
      joinChar sep (xss.map (joinChar sep)) = joinChar sep xss.flatten
  | [], _ => rfl
  | [xs], _ => by simp [joinChar]
  | xs :: xs' :: xss, hne => by
    have hxs : xs ≠ [] := hne xs (List.mem_cons_self _ _)
    have htail : ∀ u ∈ xs' :: xss, u ≠ [] :=
      fun u hu => hne u (List.mem_cons_of_mem _ hu)
    have ih := @joinChar_flatten sep (xs' :: xss) htail
    have hflat : (xs' :: xss).flatten ≠ [] := by
      have : xs' ≠ [] := htail xs' (List.mem_cons_self _ _)
      cases xs' with
      | nil => exact absurd rfl this
      | cons a l => simp
    calc joinChar sep ((xs :: xs' :: xss).map (joinChar sep))
        = joinChar sep xs ++ sep :: joinChar sep ((xs' :: xss).map (joinChar sep)) := by
          simp [joinChar]
      _ = joinChar sep xs ++ sep :: joinChar sep (xs' :: xss).flatten := by rw [ih]
      _ = joinChar sep (xs ++ (xs' :: xss).flatten) := by
          rw [joinChar_append hxs hflat]
      _ = joinChar sep ((xs :: xs' :: xss)).flatten := by simp

/-- Every character of a join is the separator or from some piece. -/
theorem mem_joinChar {sep : Char} :
    ∀ {ts : List Str} {c : Char}, c ∈ joinChar sep ts →
      c = sep ∨ ∃ t ∈ ts, c ∈ t
  | [], _, h => by simp [joinChar] at h
  | [t], c, h => by
    simp only [joinChar] at h
    exact Or.inr ⟨t, List.mem_singleton_self t, h⟩
  | t :: t' :: ts, c, h => by
    simp only [joinChar, List.mem_append, List.mem_cons] at h
    rcases h with h | h | h
    · exact Or.inr ⟨t, List.mem_cons_self _ _, h⟩
    · exact Or.inl h
    · rcases mem_joinChar h with h | ⟨u, hu, hc⟩
      · exact Or.inl h
      · exact Or.inr ⟨u, List.mem_cons_of_mem _ hu, hc⟩

/-- The head of a join is the head of the first (nonempty) piece. -/
theorem joinChar_head {sep : Char} {t : Str} (ht : t ≠ []) (ts : List Str) :
    (joinChar sep (t :: ts)).head? = t.head? := by
  cases ts with
  | nil => rfl
  | cons t' ts =>
    cases t with
    | nil => exact absurd rfl ht
    | cons c r => simp [joinChar]

/-- A join whose final piece is nonempty is nonempty. -/
theorem joinChar_concat_ne_nil {sep : Char} {t : Str} (ht : t ≠ []) :
    ∀ ts : List Str, joinChar sep (ts ++ [t]) ≠ []
  | [] => by simpa [joinChar] using ht
  | x :: ts => by
    obtain ⟨u, us, huw⟩ : ∃ u us, ts ++ [t] = u :: us := by
      cases ts with
      | nil => exact ⟨t, [], rfl⟩
      | cons a l => exact ⟨a, l ++ [t], by simp⟩
    simp only [List.cons_append, huw, joinChar]
    simp

/-- The last element of a join is the last of the final (nonempty) piece. -/
theorem joinChar_getLast {sep : Char} {t : Str} (ht : t ≠ []) :
    ∀ ts : List Str, (joinChar sep (ts ++ [t])).getLast? = t.getLast?
  | [] => rfl
  | x :: ts => by
    have ih := @joinChar_getLast sep t ht ts
    have hne : joinChar sep (ts ++ [t]) ≠ [] := joinChar_concat_ne_nil ht ts
    obtain ⟨u, us, huw⟩ : ∃ u us, ts ++ [t] = u :: us := by
      cases ts with
      | nil => exact ⟨t, [], rfl⟩
      | cons a l => exact ⟨a, l ++ [t], by simp⟩
    rw [huw] at ih hne
    simp only [List.cons_append, huw, joinChar]
    rw [List.getLast?_append_cons]
    obtain ⟨d, ds, hds⟩ := List.exists_cons_of_ne_nil hne
    rw [hds] at ih ⊢
    rw [List.getLast?_cons_cons]
    exact ih

/-- Dropping leading spaces does nothing when the head is not a space. -/
theorem dropWhile_eq_self_of_head {l : Str}
    (h : l.head? ≠ some spaceChar) :
    l.dropWhile (fun c => c = spaceChar) = l := by
  cases l with
  | nil => rfl
  | cons c r =>
    have : c ≠ spaceChar := by
      intro hc; exact h (by simp [hc])
    simp [List.dropWhile_cons, this]

/-- `strip` does nothing to text with no space at either end. -/
theorem stripStr_eq_self {l : Str} (h1 : l.head? ≠ some spaceChar)
    (h2 : l.getLast? ≠ some spaceChar) : stripStr l = l := by
  unfold stripStr
  rw [dropWhile_eq_self_of_head h1]
  rw [dropWhile_eq_self_of_head (by rwa [List.head?_reverse])]
  exact l.reverse_reverse

/-! ## Numeral rendering and parsing lemmas -/

/-- Code point of a digit character. -/
theorem digitChar_toNat {d : Nat} (h : d < 10) :
    (digitChar d).toNat = 48 + d := by
  interval_cases d <;> decide

/-- Reading back a digit character recovers the digit. -/
theorem charVal_digitChar {d : Nat} (h : d < 10) :
    charVal (digitChar d) = some d := by
  interval_cases d <;> decide

/-- Reading digit values across a digit-character string. -/
theorem charsVal_map_digitChar :
    ∀ {ds : List Nat}, (∀ d ∈ ds, d < 10) →
      charsVal (ds.map digitChar) = some ds
  | [], _ => rfl
  | d :: ds, h => by
    have hd := h d (List.mem_cons_self _ _)
    have ih := charsVal_map_digitChar
      (fun e he => h e (List.mem_cons_of_mem _ he))
    simp only [List.map_cons, charsVal, charVal_digitChar hd, ih]

/-- `charsVal` distributes over append. -/
theorem charsVal_append :
    ∀ {t u : Str} {vs ws : List Nat}, charsVal t = some vs →
      charsVal u = some ws → charsVal (t ++ u) = some (vs ++ ws)
  | [], u, vs, ws, ht, hu => by
    simp only [charsVal, Option.some.injEq] at ht
    subst ht
    simpa using hu
  | c :: r, u, vs, ws, ht, hu => by
    simp only [charsVal] at ht
    match hcv : charVal c, hrv : charsVal r with
    | some d, some ds =>
      rw [hcv, hrv] at ht
      simp only [Option.some.injEq] at ht
      subst ht
      have ih := charsVal_append (t := r) hrv hu
      simp [charsVal, hcv, ih]
    | some d, none => rw [hcv, hrv] at ht; exact absurd ht (by simp)
    | none, _ => rw [hcv] at ht; exact absurd ht (by simp)

/-- `charsVal` commutes with reversal. -/
theorem charsVal_reverse :
    ∀ {t : Str} {vs : List Nat}, charsVal t = some vs →
      charsVal t.reverse = some vs.reverse
  | [], vs, h => by
    simp only [charsVal, Option.some.injEq] at h
    subst h
    rfl
  | c :: r, vs, h => by
    simp only [charsVal] at h
    match hcv : charVal c, hrv : charsVal r with
    | some d, some ds =>
      rw [hcv, hrv] at h
      simp only [Option.some.injEq] at h
      subst h
      have ih := charsVal_reverse (t := r) hrv
      have hc : charsVal [c] = some [d] := by simp [charsVal, hcv]
      have happ := charsVal_append ih hc
      simp only [List.reverse_cons, happ]
    | some d, none => rw [hcv, hrv] at h; exact absurd h (by simp)
    | none, _ => rw [hcv] at h; exact absurd h (by simp)

/-- The decimal rendering of a natural number is nonempty. -/
theorem natStr_ne_nil (n : Nat) : natStr n ≠ [] := by
  unfold natStr
  by_cases h : n = 0
  · simp [h]
  · have hd : Nat.digits 10 n ≠ [] := Nat.digits_ne_nil_iff_ne_zero.mpr h
    simp only [h, if_false, ne_eq, List.reverse_eq_nil_iff]
    simpa using hd

/-- Every character of a natural-number rendering is a digit character. -/
theorem mem_natStr {c : Char} {n : Nat} (h : c ∈ natStr n) :
    ∃ d, d < 10 ∧ c = digitChar d := by
  unfold natStr at h
  by_cases h0 : n = 0
  · simp [h0] at h
    exact ⟨0, by omega, h⟩
  · simp only [h0, if_false, List.mem_reverse, List.mem_map] at h
    obtain ⟨d, hd, hc⟩ := h
    exact ⟨d, Nat.digits_lt_base (by omega) hd, hc.symm⟩

/-- Round trip for natural-number numerals. -/
theorem parseNat?_natStr (n : Nat) : parseNat? (natStr n) = some n := by
  unfold parseNat?
  rw [if_neg (natStr_ne_nil n)]
  by_cases h0 : n = 0
  · subst h0; decide
  · have hd : ∀ d ∈ Nat.digits 10 n, d < 10 :=
      fun d hd => Nat.digits_lt_base (by omega) hd
    have h1 : charsVal ((Nat.digits 10 n).map digitChar) =
        some (Nat.digits 10 n) := charsVal_map_digitChar hd
    have h2 := charsVal_reverse h1
    unfold natStr
    rw [if_neg h0, h2]
    simp only [Option.map_some', Option.some.injEq, List.reverse_reverse]
    exact Nat.ofDigits_digits 10 n

/-- The head of a natural-number rendering is a digit (not a minus sign). -/
theorem natStr_head_not_minus (n : Nat) :
    ∀ c, (natStr n).head? = some c → c ≠ minusChar := by
  intro c hc
  have hmem : c ∈ natStr n := by
    cases hn : natStr n with
    | nil => rw [hn] at hc; simp at hc
    | cons a l => rw [hn] at hc; simp at hc; simp [hn, hc]
  obtain ⟨d, hd, rfl⟩ := mem_natStr hmem
  intro h
  have := digitChar_toNat hd
  rw [h] at this
  simp [minusChar] at this
  omega

/-- Round trip for integer numerals. -/
theorem parseInt?_intStr (i : Int) : parseInt? (intStr i) = some i := by
  unfold intStr
  by_cases hneg : i < 0
  · simp only [hneg, if_true]
    simp only [parseInt?, if_true]
    rw [parseNat?_natStr]
    simp only [Option.map_some', Option.some.injEq, Int.ofNat_eq_coe]
    omega
  · simp only [hneg, if_false]
    cases hn : natStr i.natAbs with
    | nil => exact absurd hn (natStr_ne_nil _)
    | cons c l =>
      have hc : c ≠ minusChar :=
        natStr_head_not_minus i.natAbs c (by simp [hn])
      simp only [parseInt?]
      rw [if_neg hc, ← hn, parseNat?_natStr]
      simp only [Option.map_some', Option.some.injEq, Int.ofNat_eq_coe]
      omega

/-- Round trip for numerals through the error-carrying parser. -/
theorem parseNumE_intStr (i : Int) : parseNumE (intStr i) = .ok i := by
  simp [parseNumE, parseInt?_intStr]

/-! ## Token well-formedness -/

/-- A well-formed token: nonempty, with no space and no newline. -/
def goodTok (t : Str) : Prop :=
  t ≠ [] ∧ ∀ c ∈ t, c ≠ spaceChar ∧ c ≠ nlChar

/-- An element named by `getLast?` belongs to the list. -/
theorem getLast?_mem_self {α : Type} {l : List α} {a : α}
    (h : l.getLast? = some a) : a ∈ l := by
  obtain ⟨hne, h2⟩ := List.mem_getLast?_eq_getLast
    (show a ∈ l.getLast? from by rw [Option.mem_def]; exact h)
  rw [h2]
  exact List.getLast_mem hne

/-- An element named by `head?` belongs to the list. -/
theorem head?_mem_self {α : Type} {l : List α} {a : α}
    (h : l.head? = some a) : a ∈ l := by
  cases l with
  | nil => simp at h
  | cons c r => simp at h; simp [h]

/-- Characters of an integer rendering: a minus sign or a digit. -/
theorem mem_intStr {c : Char} {i : Int} (h : c ∈ intStr i) :
    c = minusChar ∨ ∃ d, d < 10 ∧ c = digitChar d := by
  unfold intStr at h
  by_cases hneg : i < 0
  · simp only [hneg, if_true, List.mem_cons] at h
    rcases h with h | h
    · exact Or.inl h
    · exact Or.inr (mem_natStr h)
  · simp only [hneg, if_false] at h
    exact Or.inr (mem_natStr h)

/-- Digit characters are none of the separator characters. -/
theorem digitChar_sep {d : Nat} (h : d < 10) :
    digitChar d ≠ spaceChar ∧ digitChar d ≠ nlChar ∧
    digitChar d ≠ commaChar ∧ digitChar d ≠ minusChar := by
  interval_cases d <;> refine ⟨by decide, by decide, by decide, by decide⟩

/-- Integer renderings are well-formed tokens. -/
theorem goodTok_intStr (i : Int) : goodTok (intStr i) := by
  constructor
  · unfold intStr
    by_cases hneg : i < 0
    · simp [hneg]
    · simp only [hneg, if_false]
      exact natStr_ne_nil _
  · intro c hc
    rcases mem_intStr hc with rfl | ⟨d, hd, rfl⟩
    · exact ⟨by decide, by decide⟩
    · exact ⟨(digitChar_sep hd).1, (digitChar_sep hd).2.1⟩

/-- Integer renderings contain no comma. -/
theorem intStr_comma_free {c : Char} {i : Int} (h : c ∈ intStr i) :
    c ≠ commaChar := by
  rcases mem_intStr h with rfl | ⟨d, hd, rfl⟩
  · decide
  · exact (digitChar_sep hd).2.2.1

/-- A join of nonempty pieces is nonempty. -/
theorem joinChar_cons_ne_nil {sep : Char} {t : Str} (ht : t ≠ [])
    (ts : List Str) : joinChar sep (t :: ts) ≠ [] := by
  intro h
  have := @joinChar_head sep t ht ts
  rw [h] at this
  cases t with
  | nil => exact ht rfl
  | cons a l => simp at this

/-- Colour renderings are well-formed tokens. -/
theorem goodTok_colourStr (c : Colour) : goodTok (colourStr c) := by
  constructor
  · exact joinChar_cons_ne_nil (goodTok_intStr c.k).1 _
  · intro ch hch
    rcases mem_joinChar hch with rfl | ⟨t, ht, hcht⟩
    · exact ⟨by decide, by decide⟩
    · simp only [colourStr, List.mem_cons] at ht
      rcases ht with rfl | rfl | rfl | rfl | h
      · exact (goodTok_intStr c.k).2 ch hcht
      · exact (goodTok_intStr c.r).2 ch hcht
      · exact (goodTok_intStr c.g).2 ch hcht
      · exact (goodTok_intStr c.b).2 ch hcht
      · simp at h

/-- The keyword and corner tokens are well-formed. -/
theorem goodTok_kw : goodTok lineKw ∧ goodTok rectKw ∧
    goodTok (cornerStr .rounded) ∧ goodTok (cornerStr .square) ∧
    goodTok beginKw ∧ goodTok endKw := by
  refine ⟨⟨by decide, ?_⟩, ⟨by decide, ?_⟩, ⟨by decide, ?_⟩,
    ⟨by decide, ?_⟩, ⟨by decide, ?_⟩, ⟨by decide, ?_⟩⟩ <;> decide

/-- Corner tokens of either style are well-formed. -/
theorem goodTok_cornerStr (k : Corner) : goodTok (cornerStr k) := by
  cases k
  · exact goodTok_kw.2.2.1
  · exact goodTok_kw.2.2.2.1

/-! ## Serialised shape lines: tokenisation round trip -/

/-- `wsSplit` is a left inverse of the space-join of well-formed tokens. -/
theorem wsSplit_joinChar {ts : List Str} (hne : ts ≠ [])
    (hgood : ∀ t ∈ ts, goodTok t) :
    wsSplit (joinChar spaceChar ts) = ts := by
  unfold wsSplit
  rw [splitOnChar_joinChar hne
    (fun t ht hsp => ((hgood t ht).2 spaceChar hsp).1 rfl)]
  rw [List.filter_eq_self]
  intro t ht
  have := (hgood t ht).1
  simpa using this

/-- `strip` does nothing to a space-join of well-formed tokens. -/
theorem stripStr_joinChar {t : Str} {ts : List Str}
    (hgood : ∀ u ∈ t :: ts, goodTok u) :
    stripStr (joinChar spaceChar (t :: ts)) = joinChar spaceChar (t :: ts) := by
  have ht : t ≠ [] := (hgood t (List.mem_cons_self _ _)).1
  apply stripStr_eq_self
  · rw [joinChar_head ht]
    intro h
    have hm := head?_mem_self (Option.mem_def.mp h)
    exact ((hgood t (List.mem_cons_self _ _)).2 spaceChar hm).1 rfl
  · obtain ⟨us, u, huw⟩ : ∃ us u, t :: ts = us ++ [u] := by
      refine ⟨(t :: ts).dropLast, (t :: ts).getLast (by simp), ?_⟩
      exact (List.dropLast_append_getLast (by simp)).symm
    have hu : u ∈ t :: ts := by rw [huw]; simp
    rw [huw, joinChar_getLast (hgood u hu).1]
    intro h
    have hm := getLast?_mem_self h
    exact ((hgood u hu).2 spaceChar hm).1 rfl

/-- The flattened token list of a serialised line shape. -/
def lineToks (a b : Point) (c : Colour) : List Str :=
  [lineKw, intStr a.x, intStr a.y, intStr b.x, intStr b.y, colourStr c]

/-- The flattened token list of a serialised rectangle shape. -/
def rectToks (a b : Point) (c : Colour) (k : Corner) : List Str :=
  [rectKw, intStr a.x, intStr a.y, intStr b.x, intStr b.y, colourStr c,
   cornerStr k]

/-- The serialised line is the space-join of its six tokens. -/
theorem lineStr1_eq (a b : Point) (c : Colour) :
    lineStr1 a b c = joinChar spaceChar (lineToks a b c) := by
  simp [lineStr1, pointStr, lineToks, joinChar, List.append_assoc]

/-- The serialised rectangle is the space-join of its seven tokens. -/
theorem rectStr1_eq (a b : Point) (c : Colour) (k : Corner) :
    rectStr1 a b c k = joinChar spaceChar (rectToks a b c k) := by
  simp [rectStr1, pointStr, rectToks, joinChar, List.append_assoc]

/-- All tokens of a serialised line are well-formed. -/
theorem lineToks_good (a b : Point) (c : Colour) :
    ∀ t ∈ lineToks a b c, goodTok t := by
  intro t ht
  simp only [lineToks, List.mem_cons] at ht
  rcases ht with rfl | rfl | rfl | rfl | rfl | h
  · exact goodTok_kw.1
  · exact goodTok_intStr _
  · exact goodTok_intStr _
  · exact goodTok_intStr _
  · exact goodTok_intStr _
  · rcases h with rfl | h
    · exact goodTok_colourStr c
    · simp at h

/-- All tokens of a serialised rectangle are well-formed. -/
theorem rectToks_good (a b : Point) (c : Colour) (k : Corner) :
    ∀ t ∈ rectToks a b c k, goodTok t := by
  intro t ht
  simp only [rectToks, List.mem_cons] at ht
  rcases ht with rfl | rfl | rfl | rfl | rfl | rfl | rfl | h
  · exact goodTok_kw.2.1
  · exact goodTok_intStr _
  · exact goodTok_intStr _
  · exact goodTok_intStr _
  · exact goodTok_intStr _
  · exact goodTok_colourStr c
  · exact goodTok_cornerStr k
  · simp at h

/-- Tokenising a serialised line recovers its six tokens. -/
theorem wsSplit_lineStr1 (a b : Point) (c : Colour) :
    wsSplit (lineStr1 a b c) = lineToks a b c := by
  rw [lineStr1_eq]
  exact wsSplit_joinChar (by simp [lineToks]) (lineToks_good a b c)

/-- Tokenising a serialised rectangle recovers its seven tokens. -/
theorem wsSplit_rectStr1 (a b : Point) (c : Colour) (k : Corner) :
    wsSplit (rectStr1 a b c k) = rectToks a b c k := by
  rw [rectStr1_eq]
  exact wsSplit_joinChar (by simp [rectToks]) (rectToks_good a b c k)

/-- Stripping a serialised line shape does nothing. -/
theorem stripStr_lineStr1 (a b : Point) (c : Colour) :
    stripStr (lineStr1 a b c) = lineStr1 a b c := by
  rw [lineStr1_eq]
  exact stripStr_joinChar (lineToks_good a b c)

/-- Stripping a serialised rectangle shape does nothing. -/
theorem stripStr_rectStr1 (a b : Point) (c : Colour) (k : Corner) :
    stripStr (rectStr1 a b c k) = rectStr1 a b c k := by
  rw [rectStr1_eq]
  exact stripStr_joinChar (rectToks_good a b c k)

/-! ## `parse_line` round trip -/

/-- Splitting a serialised colour at commas recovers the channel tokens. -/
theorem splitOnChar_colourStr (c : Colour) :
    splitOnChar commaChar (colourStr c) =
      [intStr c.k, intStr c.r, intStr c.g, intStr c.b] := by
  unfold colourStr
  apply splitOnChar_joinChar (by simp)
  intro t ht hc
  simp only [List.mem_cons] at ht
  rcases ht with rfl | rfl | rfl | rfl | h
  · exact intStr_comma_free hc rfl
  · exact intStr_comma_free hc rfl
  · exact intStr_comma_free hc rfl
  · exact intStr_comma_free hc rfl
  · simp at h

/-- Parsing a serialised colour recovers the colour. -/
theorem parseColour_colourStr (c : Colour) :
    parseColour (colourStr c) = .ok c := by
  unfold parseColour
  rw [splitOnChar_colourStr]
  simp [numsOf, parseNumE_intStr, Except.bind]

/-- Parsing a serialised corner recovers the corner. -/
theorem parseCorner_cornerStr (k : Corner) :
    parseCorner (cornerStr k) = .ok k := by
  cases k <;> rfl

/-- `parse_line` undoes `Line.__str__`. -/
theorem parse_line_lineStr1 (a b : Point) (c : Colour) :
    parse_line (lineStr1 a b c) = .ok (some (.line a b c)) := by
  unfold parse_line
  rw [wsSplit_lineStr1]
  simp [lineToks, tokAt, tokNum, parseNumE_intStr, parseColour_colourStr,
    Except.bind]

/-- `parse_line` undoes `Rectangle.__str__`. -/
theorem parse_line_rectStr1 (a b : Point) (c : Colour) (k : Corner) :
    parse_line (rectStr1 a b c k) = .ok (some (.rect a b c k)) := by
  unfold parse_line
  rw [wsSplit_rectStr1]
  have hkw : rectKw ≠ lineKw := by decide
  simp [rectToks, tokAt, tokNum, parseNumE_intStr, parseColour_colourStr,
    parseCorner_cornerStr, Except.bind, hkw]

/-! ## Structural induction for shapes -/

/-- Induction over the nested shape variant: a property holding for lines,
rectangles, and groups whenever it holds for every member, holds for every
shape. -/
theorem shape_ind (P : Shape → Prop)
    (hl : ∀ a b c, P (.line a b c))
    (hr : ∀ a b c k, P (.rect a b c k))
    (hg : ∀ ms, (∀ m ∈ ms, P m) → P (.group ms)) :
    ∀ s, P s := by
  have H : ∀ n s, sizeOf s ≤ n → P s := by
    intro n
    induction n with
    | zero =>
      intro s hs
      have := shape_sizeOf_pos s
      omega
    | succ n ih =>
      intro s hs
      cases s with
      | line a b c => exact hl a b c
      | rect a b c k => exact hr a b c k
      | group ms =>
        refine hg ms (fun m hm => ih m ?_)
        have h1 := List.sizeOf_lt_of_mem hm
        simp only [Shape.group.sizeOf_spec] at hs
        omega
  exact fun s => H (sizeOf s) s (Nat.le_refl _)

/-! ## `parseGroup` bookkeeping -/

/-- Creating a group from fully parsed shapes succeeds with those shapes. -/
theorem createGroup_somes :
    ∀ ms : List Shape, createGroup (ms.map some) = .ok ms
  | [] => rfl
  | s :: rest => by
    simp only [List.map_cons, createGroup, createGroup_somes rest]
    rfl

/-- The remaining lines returned by `parseGroup` never exceed the input. -/
theorem parseGroup_rem_le :
    ∀ (f : Nat) (cur : List (Option Shape)) (ls : List Str)
      {g : List Shape} {rem : List Str},
      parseGroup f cur ls = .ok (g, rem) → rem.length ≤ ls.length := by
  intro f
  induction f with
  | zero => intro cur ls g rem h; simp [parseGroup] at h
  | succ f ih =>
    intro cur ls g rem h
    cases ls with
    | nil =>
      simp only [parseGroup] at h
      match hcg : createGroup cur with
      | .error e => rw [hcg] at h; simp [Except.map] at h
      | .ok s =>
        rw [hcg] at h
        simp only [Except.map, Except.ok.injEq, Prod.mk.injEq] at h
        rw [← h.2]
    | cons l rest =>
      simp only [parseGroup] at h
      by_cases hb : stripStr l = beginKw
      · rw [if_pos hb] at h
        match hin : parseGroup f [] rest with
        | .error e => rw [hin] at h; simp at h
        | .ok (sub, rem1) =>
          rw [hin] at h
          have h1 := ih [] rest hin
          have h2 := ih _ rem1 h
          simp only [List.length_cons]
          omega
      · rw [if_neg hb] at h
        by_cases he : stripStr l = endKw
        · rw [if_pos he] at h
          match hcg : createGroup cur with
          | .error e => rw [hcg] at h; simp [Except.map] at h
          | .ok s =>
            rw [hcg] at h
            simp only [Except.map, Except.ok.injEq, Prod.mk.injEq] at h
            rw [← h.2]
            simp
        · rw [if_neg he] at h
          match hpl : parse_line (stripStr l) with
          | .error e => rw [hpl] at h; simp at h
          | .ok s? =>
            rw [hpl] at h
            have h2 := ih _ rest h
            simp only [List.length_cons]
            omega

/-- `parseGroup` does not depend on the fuel once it exceeds the number of
lines. -/
theorem parseGroup_fuel_irrel :
    ∀ (f1 f2 : Nat) (cur : List (Option Shape)) (ls : List Str),
      ls.length < f1 → ls.length < f2 →
      parseGroup f1 cur ls = parseGroup f2 cur ls := by
  intro f1
  induction f1 with
  | zero => intro f2 cur ls h1 h2; omega
  | succ f1 ih =>
    intro f2 cur ls h1 h2
    cases f2 with
    | zero => omega
    | succ f2 =>
      cases ls with
      | nil => simp [parseGroup]
      | cons l rest =>
        simp only [parseGroup]
        by_cases hb : stripStr l = beginKw
        · rw [if_pos hb, if_pos hb]
          have hrest1 : rest.length < f1 := by
            simp only [List.length_cons] at h1; omega
          have hrest2 : rest.length < f2 := by
            simp only [List.length_cons] at h2; omega
          rw [← ih f2 [] rest hrest1 hrest2]
          match hin : parseGroup f1 [] rest with
          | .error e => rfl
          | .ok (sub, rem1) =>
            have hrem := parseGroup_rem_le f1 [] rest hin
            exact ih f2 _ rem1 (by omega) (by omega)
        · rw [if_neg hb, if_neg hb]
          by_cases he : stripStr l = endKw
          · rw [if_pos he, if_pos he]
          · rw [if_neg he, if_neg he]
            match hpl : parse_line (stripStr l) with
            | .error e => rfl
            | .ok s? =>
              have hrest1 : rest.length < f1 := by
                simp only [List.length_cons] at h1; omega
              have hrest2 : rest.length < f2 := by
                simp only [List.length_cons] at h2; omega
              exact ih f2 _ rest hrest1 hrest2

/-! ## Consuming serialised shapes -/

/-- Serialised line shapes keep their head under `joinChar`. -/
theorem lineStr1_head (a b : Point) (c : Colour) :
    (lineStr1 a b c).head? = lineKw.head? := by
  rw [lineStr1_eq]
  exact joinChar_head (by decide) _

/-- Serialised rectangle shapes keep their head under `joinChar`. -/
theorem rectStr1_head (a b : Point) (c : Colour) (k : Corner) :
    (rectStr1 a b c k).head? = rectKw.head? := by
  rw [rectStr1_eq]
  exact joinChar_head (by decide) _

/-- A serialised line shape is not the `begin` line. -/
theorem lineStr1_ne_beginKw (a b : Point) (c : Colour) :
    lineStr1 a b c ≠ beginKw := by
  intro h
  have h1 := lineStr1_head a b c
  rw [h] at h1
  revert h1
  decide

/-- A serialised line shape is not the `end` line. -/
theorem lineStr1_ne_endKw (a b : Point) (c : Colour) :
    lineStr1 a b c ≠ endKw := by
  intro h
  have h1 := lineStr1_head a b c
  rw [h] at h1
  revert h1
  decide

/-- A serialised rectangle shape is not the `begin` line. -/
theorem rectStr1_ne_beginKw (a b : Point) (c : Colour) (k : Corner) :
    rectStr1 a b c k ≠ beginKw := by
  intro h
  have h1 := rectStr1_head a b c k
  rw [h] at h1
  revert h1
  decide

/-- A serialised rectangle shape is not the `end` line. -/
theorem rectStr1_ne_endKw (a b : Point) (c : Colour) (k : Corner) :
    rectStr1 a b c k ≠ endKw := by
  intro h
  have h1 := rectStr1_head a b c k
  rw [h] at h1
  revert h1
  decide

/-- Stripping the `begin` line does nothing. -/
theorem stripStr_beginKw : stripStr beginKw = beginKw := rfl

/-- Stripping the `end` line does nothing. -/
theorem stripStr_endKw : stripStr endKw = endKw := rfl

/-- The two group delimiters differ. -/
theorem endKw_ne_beginKw : endKw ≠ beginKw := by decide

/-- Consuming the serialised lines of members appends them (wrapped in
`some`) to the accumulator, given the consumption property for each
member. -/
theorem parseGroupN_consume_seq_of (ms : List Shape)
    (hm : ∀ m ∈ ms, ∀ (cur : List (Option Shape)) (rest : List Str),
      parseGroupN cur (shapeLines m ++ rest) =
        parseGroupN (cur ++ [some m]) rest) :
    ∀ (cur : List (Option Shape)) (rest : List Str),
      parseGroupN cur (seqLines ms ++ rest) =
        parseGroupN (cur ++ ms.map some) rest := by
  induction ms with
  | nil => intro cur rest; simp [seqLines]
  | cons m ms' ih =>
    intro cur rest
    simp only [seqLines]
    calc parseGroupN cur ((shapeLines m ++ seqLines ms') ++ rest)
        = parseGroupN cur (shapeLines m ++ (seqLines ms' ++ rest)) := by
          rw [List.append_assoc]
      _ = parseGroupN (cur ++ [some m]) (seqLines ms' ++ rest) :=
          hm m (List.mem_cons_self _ _) cur _
      _ = parseGroupN ((cur ++ [some m]) ++ ms'.map some) rest :=
          ih (fun u hu => hm u (List.mem_cons_of_mem _ hu)) _ _
      _ = parseGroupN (cur ++ (m :: ms').map some) rest := by simp

/-- Parsing consumes a serialised shape and stores it in the
accumulator. -/
theorem parseGroupN_consume :
    ∀ s : Shape, ∀ (cur : List (Option Shape)) (rest : List Str),
      parseGroupN cur (shapeLines s ++ rest) =
        parseGroupN (cur ++ [some s]) rest := by
  apply shape_ind
  · intro a b c cur rest
    simp only [shapeLines, List.cons_append, List.nil_append]
    simp only [parseGroupN, List.length_cons, parseGroup]
    rw [stripStr_lineStr1]
    rw [if_neg (lineStr1_ne_beginKw a b c), if_neg (lineStr1_ne_endKw a b c)]
    rw [parse_line_lineStr1]
  · intro a b c k cur rest
    simp only [shapeLines, List.cons_append, List.nil_append]
    simp only [parseGroupN, List.length_cons, parseGroup]
    rw [stripStr_rectStr1]
    rw [if_neg (rectStr1_ne_beginKw a b c k),
        if_neg (rectStr1_ne_endKw a b c k)]
    rw [parse_line_rectStr1]
  · intro ms IH cur rest
    simp only [shapeLines]
    have hL : (beginKw :: seqLines ms ++ [endKw]) ++ rest =
        beginKw :: (seqLines ms ++ (endKw :: rest)) := by simp
    rw [hL]
    have hinner : parseGroup ((seqLines ms ++ (endKw :: rest)).length + 1)
        [] (seqLines ms ++ (endKw :: rest)) = .ok (ms, rest) := by
      have h1 := parseGroupN_consume_seq_of ms IH [] (endKw :: rest)
      rw [show parseGroup ((seqLines ms ++ (endKw :: rest)).length + 1)
            [] (seqLines ms ++ (endKw :: rest)) =
          parseGroupN [] (seqLines ms ++ (endKw :: rest)) from rfl, h1]
      simp only [parseGroupN, List.length_cons, List.nil_append, parseGroup]
      rw [stripStr_endKw]
      rw [if_neg endKw_ne_beginKw, if_pos rfl]
      rw [createGroup_somes]
      rfl
    simp only [parseGroupN, List.length_cons, parseGroup]
    rw [stripStr_beginKw, if_pos rfl, hinner]
    apply parseGroup_fuel_irrel
    · simp only [List.length_append, List.length_cons]
      omega
    · omega

/-! ## Serialised documents and their lines -/

/-- Characters of a space-join of well-formed tokens are never newlines. -/
theorem joinChar_space_nlFree {ts : List Str} (h : ∀ t ∈ ts, goodTok t) :
    ∀ c ∈ joinChar spaceChar ts, c ≠ nlChar := by
  intro c hc
  rcases mem_joinChar hc with rfl | ⟨t, ht, hct⟩
  · decide
  · exact ((h t ht).2 c hct).2

/-- A line of a shape sequence's serialisation is a line of one of its
shapes. -/
theorem mem_seqLines :
    ∀ {ms : List Shape} {l : Str}, l ∈ seqLines ms →
      ∃ m ∈ ms, l ∈ shapeLines m
  | [], l, h => by simp [seqLines] at h
  | m :: ms, l, h => by
    simp only [seqLines, List.mem_append] at h
    rcases h with h | h
    · exact ⟨m, List.mem_cons_self _ _, h⟩
    · obtain ⟨u, hu, hl⟩ := mem_seqLines h
      exact ⟨u, List.mem_cons_of_mem _ hu, hl⟩

/-- Every serialised line of a shape is nonempty and newline-free. -/
theorem shapeLines_good :
    ∀ s : Shape, ∀ l ∈ shapeLines s, l ≠ [] ∧ ∀ c ∈ l, c ≠ nlChar := by
  apply shape_ind
  · intro a b c l hl
    simp only [shapeLines, List.mem_singleton] at hl
    subst hl
    rw [lineStr1_eq]
    exact ⟨joinChar_cons_ne_nil (by decide) _,
      joinChar_space_nlFree (lineToks_good a b c)⟩
  · intro a b c k l hl
    simp only [shapeLines, List.mem_singleton] at hl
    subst hl
    rw [rectStr1_eq]
    exact ⟨joinChar_cons_ne_nil (by decide) _,
      joinChar_space_nlFree (rectToks_good a b c k)⟩
  · intro ms IH l hl
    simp only [shapeLines, List.mem_cons, List.mem_append,
      List.mem_singleton] at hl
    rcases hl with (rfl | h) | (rfl | h)
    · exact ⟨by decide, by decide⟩
    · obtain ⟨m, hm, hlm⟩ := mem_seqLines h
      exact IH m hm l hlm
    · exact ⟨by decide, by decide⟩
    · simp at h

/-- A shape has at least one serialised line. -/
theorem shapeLines_ne_nil (s : Shape) : shapeLines s ≠ [] := by
  cases s <;> simp [shapeLines]

/-- The lines of a sequence are the flattened lines of its shapes. -/
theorem seqLines_eq_flatten :
    ∀ ms : List Shape, seqLines ms = (ms.map shapeLines).flatten
  | [] => by simp [seqLines]
  | m :: ms => by
    simp only [seqLines, List.map_cons, List.flatten_cons,
      seqLines_eq_flatten ms]

/-- `strList` is the map of `shapeStr`. -/
theorem strList_eq_map :
    ∀ ms : List Shape, strList ms = ms.map shapeStr
  | [] => by simp [strList]
  | m :: ms => by simp only [strList, List.map_cons, strList_eq_map ms]

/-- A shape's serialised string is the newline-join of its lines. -/
theorem shapeStr_eq_join :
    ∀ s : Shape, shapeStr s = joinChar nlChar (shapeLines s) := by
  apply shape_ind
  · intro a b c; simp [shapeStr, shapeLines, joinChar]
  · intro a b c k; simp [shapeStr, shapeLines, joinChar]
  · intro ms IH
    simp only [shapeStr, shapeLines]
    rw [strList_eq_map]
    have hmap : ms.map shapeStr =
        (ms.map shapeLines).map (joinChar nlChar) := by
      rw [List.map_map]
      exact List.map_congr_left (fun m hm => IH m hm)
    rw [hmap]
    have hshape : beginKw :: (ms.map shapeLines).map (joinChar nlChar)
          ++ [endKw] =
        (([beginKw] :: ms.map shapeLines) ++ [[endKw]]).map
          (joinChar nlChar) := by
      simp [joinChar]
    rw [hshape]
    rw [joinChar_flatten]
    · congr 1
      simp [seqLines_eq_flatten]
    · intro xs hxs
      simp only [List.mem_append, List.mem_cons, List.mem_singleton] at hxs
      rcases hxs with (rfl | h) | (rfl | h)
      · simp
      · obtain ⟨m, hm, rfl⟩ := List.mem_map.mp h
        exact shapeLines_ne_nil m
      · simp
      · simp at h

/-- The serialised document is the newline-join of all its lines. -/
theorem drawing_to_string_eq (seq : List Shape) :
    drawing_to_string seq = joinChar nlChar (seqLines seq) := by
  unfold drawing_to_string
  rw [strList_eq_map]
  have hmap : seq.map shapeStr =
      (seq.map shapeLines).map (joinChar nlChar) := by
    rw [List.map_map]
    exact List.map_congr_left (fun m _ => shapeStr_eq_join m)
  rw [hmap, joinChar_flatten, seqLines_eq_flatten]
  intro xs hxs
  obtain ⟨m, hm, rfl⟩ := List.mem_map.mp hxs
  exact shapeLines_ne_nil m

/-- Parsing the serialised lines of a sequence recovers the sequence. -/
theorem parseLinesTop_seqLines (seq : List Shape) :
    parseLinesTop (seqLines seq) = .ok seq := by
  unfold parseLinesTop
  have h1 : parseGroupN [] (seqLines seq ++ []) =
      parseGroupN (([] : List (Option Shape)) ++ seq.map some) [] :=
    parseGroupN_consume_seq_of seq
      (fun m _ cur rest => parseGroupN_consume m cur rest) [] []
  rw [List.append_nil] at h1
  rw [h1]
  simp only [List.nil_append, parseGroupN, List.length_nil, parseGroup]
  rw [createGroup_somes]
  rfl

/-- Parsing lines that continue with a stray `end` returns the shapes
before it and discards the rest. -/
theorem parseLinesTop_seqLines_end (seq : List Shape) (rest : List Str) :
    parseLinesTop (seqLines seq ++ endKw :: rest) = .ok seq := by
  unfold parseLinesTop
  have h1 : parseGroupN [] (seqLines seq ++ endKw :: rest) =
      parseGroupN (([] : List (Option Shape)) ++ seq.map some)
        (endKw :: rest) :=
    parseGroupN_consume_seq_of seq
      (fun m _ cur r => parseGroupN_consume m cur r) [] (endKw :: rest)
  rw [h1]
  simp only [List.nil_append, parseGroupN, List.length_cons, parseGroup]
  rw [stripStr_endKw, if_neg endKw_ne_beginKw, if_pos rfl]
  rw [createGroup_somes]
  rfl

/-- Splitting the serialised document at newlines recovers its lines. -/
theorem splitOnChar_drawing {seq : List Shape} (hne : seq ≠ []) :
    splitOnChar nlChar (drawing_to_string seq) = seqLines seq := by
  rw [drawing_to_string_eq]
  apply splitOnChar_joinChar
  · cases seq with
    | nil => exact absurd rfl hne
    | cons s rest =>
      simp only [seqLines]
      intro h
      exact shapeLines_ne_nil s (List.append_eq_nil.mp h).1
  · intro l hl hnl
    obtain ⟨m, hm, hlm⟩ := mem_seqLines hl
    exact (shapeLines_good m l hlm).2 nlChar hnl rfl

/-! ## `ungroup_all` lemmas -/

mutual

/-- Executable structural size of a shape (used as the worklist measure). -/
def sizeS : Shape → Nat
  | .line .. => 1
  | .rect .. => 1
  | .group ms => 1 + sizeL ms
termination_by s => sizeOf s

/-- Executable structural size of a shape list. -/
def sizeL : List Shape → Nat
  | [] => 0
  | s :: r => sizeS s + sizeL r
termination_by l => sizeOf l

end

/-- Every shape has positive structural size. -/
theorem sizeS_pos (s : Shape) : 0 < sizeS s := by
  cases s <;> simp [sizeS]

/-- Total size of the unprocessed queue. -/
def qm (queue : List Shape) : Nat := sizeL queue

/-- `qm` of a cons. -/
theorem qm_cons (s : Shape) (r : List Shape) :
    qm (s :: r) = sizeS s + qm r := by simp [qm, sizeL]

/-- `qm` of an append. -/
theorem qm_append : ∀ a b : List Shape, qm (a ++ b) = qm a + qm b
  | [], b => by simp [qm, sizeL]
  | s :: a, b => by
    simp only [List.cons_append, qm, sizeL] at *
    rw [show sizeL (a ++ b) = sizeL a + sizeL b from qm_append a b]
    omega

/-- Size of a group in terms of its members. -/
theorem sizeS_group (ms : List Shape) :
    sizeS (Shape.group ms) = 1 + qm ms := by simp [sizeS, qm]

/-- The processed prefix of the worklist only accumulates on the left. -/
theorem ungroupLoop_acc :
    ∀ (n : Nat) (queue : List Shape), qm queue ≤ n →
      ∀ done, ungroupLoop done queue = done ++ ungroupLoop [] queue := by
  intro n
  induction n with
  | zero =>
    intro queue hq done
    cases queue with
    | nil => simp [ungroupLoop]
    | cons s rest =>
      exfalso
      have := sizeS_pos s
      rw [qm_cons] at hq
      omega
  | succ n ih =>
    intro queue hq done
    cases queue with
    | nil => simp [ungroupLoop]
    | cons s rest =>
      cases s with
      | line a b c =>
        have h1 : qm rest ≤ n := by
          rw [qm_cons] at hq
          have := sizeS_pos (Shape.line a b c)
          omega
        simp only [ungroupLoop]
        rw [ih rest h1 (done ++ [Shape.line a b c]),
            ih rest h1 ([] ++ [Shape.line a b c])]
        simp
      | rect a b c k =>
        have h1 : qm rest ≤ n := by
          rw [qm_cons] at hq
          have := sizeS_pos (Shape.rect a b c k)
          omega
        simp only [ungroupLoop]
        rw [ih rest h1 (done ++ [Shape.rect a b c k]),
            ih rest h1 ([] ++ [Shape.rect a b c k])]
        simp
      | group ms =>
        have h1 : qm (rest ++ ms) ≤ n := by
          rw [qm_cons, sizeS_group] at hq
          rw [qm_append]
          omega
        simp only [ungroupLoop]
        rw [ih (rest ++ ms) h1 (done ++ [Shape.group []]),
            ih (rest ++ ms) h1 ([] ++ [Shape.group []])]
        simp

/-- `ungroup_all` on the empty list. -/
theorem ungroup_all_nil : ungroup_all [] = [] := by
  simp [ungroup_all, ungroupLoop]

/-- `ungroup_all` visits a group: it is emptied in place and its members
are appended at the end of the list. -/
theorem ungroup_all_cons_group (ms : List Shape) (rest : List Shape) :
    ungroup_all (.group ms :: rest) = .group [] :: ungroup_all (rest ++ ms) := by
  unfold ungroup_all
  simp only [ungroupLoop]
  rw [ungroupLoop_acc (qm (rest ++ ms)) _ (Nat.le_refl _) ([] ++ [Shape.group []])]
  simp

/-- `ungroup_all` passes over a line. -/
theorem ungroup_all_cons_line (a b : Point) (c : Colour)
    (rest : List Shape) :
    ungroup_all (.line a b c :: rest) = .line a b c :: ungroup_all rest := by
  unfold ungroup_all
  simp only [ungroupLoop]
  rw [ungroupLoop_acc (qm rest) _ (Nat.le_refl _) ([] ++ [Shape.line a b c])]
  simp

/-- `ungroup_all` passes over a rectangle. -/
theorem ungroup_all_cons_rect (a b : Point) (c : Colour) (k : Corner)
    (rest : List Shape) :
    ungroup_all (.rect a b c k :: rest) =
      .rect a b c k :: ungroup_all rest := by
  unfold ungroup_all
  simp only [ungroupLoop]
  rw [ungroupLoop_acc (qm rest) _ (Nat.le_refl _) ([] ++ [Shape.rect a b c k])]
  simp

/-- A group husk left by `ungroup_all` has no members. -/
def emptiedOk : Shape → Bool
  | .group ms => ms.isEmpty
  | _ => true

/-- `leavesList` distributes over append. -/
theorem leavesList_append :
    ∀ a b : List Shape, leavesList (a ++ b) = leavesList a ++ leavesList b
  | [], b => by simp [leavesList]
  | s :: a, b => by
    simp only [List.cons_append, leavesList, leavesList_append a b,
      List.append_assoc]

/-- After `ungroup_all` every group in the list is empty. -/
theorem ungroup_all_emptied :
    ∀ (n : Nat) (queue : List Shape), qm queue ≤ n →
      (ungroup_all queue).all emptiedOk = true := by
  intro n
  induction n with
  | zero =>
    intro queue hq
    cases queue with
    | nil => simp [ungroup_all_nil]
    | cons s rest =>
      exfalso
      have := sizeS_pos s
      rw [qm_cons] at hq
      omega
  | succ n ih =>
    intro queue hq
    cases queue with
    | nil => simp [ungroup_all_nil]
    | cons s rest =>
      cases s with
      | line a b c =>
        rw [ungroup_all_cons_line]
        have h1 : qm rest ≤ n := by
          rw [qm_cons] at hq
          have := sizeS_pos (Shape.line a b c)
          omega
        simp [List.all_cons, emptiedOk, ih rest h1]
      | rect a b c k =>
        rw [ungroup_all_cons_rect]
        have h1 : qm rest ≤ n := by
          rw [qm_cons] at hq
          have := sizeS_pos (Shape.rect a b c k)
          omega
        simp [List.all_cons, emptiedOk, ih rest h1]
      | group ms =>
        rw [ungroup_all_cons_group]
        have h1 : qm (rest ++ ms) ≤ n := by
          rw [qm_cons, sizeS_group] at hq
          rw [qm_append]
          omega
        simp [List.all_cons, emptiedOk, ih _ h1]

/-- The non-group shapes surviving `ungroup_all` are a permutation of the
leaves. -/
theorem ungroup_all_leaves :
    ∀ (n : Nat) (queue : List Shape), qm queue ≤ n →
      ((ungroup_all queue).filter (fun s => !s.isGroup)).Perm
        (leavesList queue) := by
  intro n
  induction n with
  | zero =>
    intro queue hq
    cases queue with
    | nil => simp [ungroup_all_nil, leavesList]
    | cons s rest =>
      exfalso
      have := sizeS_pos s
      rw [qm_cons] at hq
      omega
  | succ n ih =>
    intro queue hq
    cases queue with
    | nil => simp [ungroup_all_nil, leavesList]
    | cons s rest =>
      cases s with
      | line a b c =>
        rw [ungroup_all_cons_line]
        have h1 : qm rest ≤ n := by
          rw [qm_cons] at hq
          have := sizeS_pos (Shape.line a b c)
          omega
        simp only [List.filter_cons, Shape.isGroup, Bool.not_false,
          if_true, leavesList, Shape.leaves, List.cons_append,
          List.nil_append]
        exact List.Perm.cons _ (ih rest h1)
      | rect a b c k =>
        rw [ungroup_all_cons_rect]
        have h1 : qm rest ≤ n := by
          rw [qm_cons] at hq
          have := sizeS_pos (Shape.rect a b c k)
          omega
        simp only [List.filter_cons, Shape.isGroup, Bool.not_false,
          if_true, leavesList, Shape.leaves, List.cons_append,
          List.nil_append]
        exact List.Perm.cons _ (ih rest h1)
      | group ms =>
        rw [ungroup_all_cons_group]
        have h1 : qm (rest ++ ms) ≤ n := by
          rw [qm_cons, sizeS_group] at hq
          rw [qm_append]
          omega
        have hperm := ih (rest ++ ms) h1
        rw [leavesList_append] at hperm
        simp only [List.filter_cons, Shape.isGroup, Bool.not_true,
          leavesList, Shape.leaves]
        refine List.Perm.trans ?_
          (@List.perm_append_comm _ (leavesList rest) (leavesList ms))
        simpa using hperm

/-! ## Draft move-operation lemmas -/

/-- Every draft shape has positive size. -/
theorem igShape_sizeOf_pos (s : IgShape) : 0 < sizeOf s := by
  cases s <;> simp

/-- Induction over the draft composite variant. -/
theorem ig_ind (P : IgShape → Prop)
    (hl : ∀ a b c, P (.line a b c))
    (hr : ∀ a b c k, P (.rectangle a b c k))
    (hg : ∀ cs, (∀ m ∈ cs, P m) → P (.composite cs)) :
    ∀ s, P s := by
  have H : ∀ n s, sizeOf s ≤ n → P s := by
    intro n
    induction n with
    | zero =>
      intro s hs
      have := igShape_sizeOf_pos s
      omega
    | succ n ih =>
      intro s hs
      cases s with
      | line a b c => exact hl a b c
      | rectangle a b c k => exact hr a b c k
      | composite cs =>
        refine hg cs (fun m hm => ih m ?_)
        have h1 := List.sizeOf_lt_of_mem hm
        simp only [IgShape.composite.sizeOf_spec] at hs
        omega
  exact fun s => H (sizeOf s) s (Nat.le_refl _)

/-- Moving the children one by one is mapping `move` over them. -/
theorem igMoveList_eq_map :
    ∀ (cs : List IgShape) (dx dy : Int),
      igMoveList cs dx dy = cs.map (fun c => c.move dx dy)
  | [], _, _ => by simp [igMoveList]
  | c :: cs, dx, dy => by
    simp only [igMoveList, List.map_cons, igMoveList_eq_map cs dx dy]

/-- A zero move of a draft shape changes nothing. -/
theorem igShape_move_zero : ∀ s : IgShape, s.move 0 0 = s := by
  apply ig_ind
  · intro a b c; simp [IgShape.move]
  · intro a b c k; simp [IgShape.move]
  · intro cs IH
    simp only [IgShape.move, igMoveList_eq_map]
    congr 1
    calc cs.map (fun c => c.move 0 0) = cs.map id :=
        List.map_congr_left (fun m hm => IH m hm)
      _ = cs := List.map_id cs

/-- Consecutive draft moves compose additively. -/
theorem igShape_move_move :
    ∀ s : IgShape, ∀ a b c d : Int,
      (s.move a b).move c d = s.move (a + c) (b + d) := by
  apply ig_ind
  · intro p q col a b c d
    simp [IgShape.move, Int.add_assoc]
  · intro p q col k a b c d
    simp [IgShape.move, Int.add_assoc]
  · intro cs IH a b c d
    simp only [IgShape.move, igMoveList_eq_map, List.map_map]
    congr 1
    exact List.map_congr_left (fun m hm => IH m hm a b c d)

/-! ## Union algebra lemmas -/

/-- Union with an unused right operand returns the left operand. -/
theorem union_unused_right (a u : BoundingBox) (hu : u.in_use = false) :
    a.union u = a := by
  unfold BoundingBox.union
  rw [if_pos hu]

/-- Union is commutative whenever at least one operand is in use. -/
theorem union_comm_of_in_use (a b : BoundingBox)
    (h : a.in_use = true ∨ b.in_use = true) :
    a.union b = b.union a := by
  obtain ⟨abl, abr, atl, atr, au⟩ := a
  obtain ⟨bbl, bbr, btl, btr, bu⟩ := b
  cases au <;> cases bu <;>
    simp_all [BoundingBox.union, min_comm, max_comm]

/-- Union is associative. -/
theorem union_assoc (a b c : BoundingBox) :
    (a.union b).union c = a.union (b.union c) := by
  obtain ⟨abl, abr, atl, atr, au⟩ := a
  obtain ⟨bbl, bbr, btl, btr, bu⟩ := b
  obtain ⟨cbl, cbr, ctl, ctr, cu⟩ := c
  cases au <;> cases bu <;> cases cu <;>
    simp_all [BoundingBox.union, min_assoc, max_assoc]

/-! ## Claim theorems -/

/-- Demonstration sequence with groups nested two deep. -/
def demoSeq : List Shape :=
  [Shape.line ⟨0, 0⟩ ⟨1, 1⟩ ⟨0, 0, 0, 0⟩,
   Shape.group [Shape.rect ⟨2, 2⟩ ⟨3, 3⟩ ⟨0, 0, 0, 0⟩ .square,
     Shape.group [Shape.line ⟨4, 5⟩ ⟨6, 7⟩ ⟨1, 2, 3, 4⟩]]]

/-- C1 (amended): for every nonempty shape sequence, with arbitrarily deep
group nesting, parsing the serialised document returns exactly the
sequence. -/
theorem C1_parse_serialize_roundtrip (seq : List Shape) (hne : seq ≠ []) :
    parse_drw (drawing_to_string seq) = .ok seq := by
  unfold parse_drw
  rw [splitOnChar_drawing hne]
  exact parseLinesTop_seqLines seq

/-- C1 witness: the round trip at a concrete sequence containing a group
nested two levels deep. -/
theorem C1_roundtrip_witness :
    parse_drw (drawing_to_string demoSeq) = .ok demoSeq :=
  C1_parse_serialize_roundtrip demoSeq (by simp [demoSeq])

/-- C1 counterexample: serialising the empty sequence gives the empty
string, and parsing it raises an index error (on the blank line) instead of
returning the empty sequence, so the round trip fails at `S = []`. -/
theorem C1_empty_counterexample :
    parse_drw (drawing_to_string []) = .error .indexError ∧
    parse_drw (drawing_to_string []) ≠ .ok [] := by
  have h0 : drawing_to_string [] = ([] : Str) := by
    simp [drawing_to_string, strList, joinChar]
  have h1 : parse_drw (drawing_to_string []) = .error .indexError := by
    rw [h0]
    rfl
  refine ⟨h1, ?_⟩
  intro h
  rw [h1] at h
  exact absurd h (by simp)

/-- The in-use box with `top_left` (0,0) and `bottom_right` (5,5). -/
def unionDemoA : BoundingBox := ⟨⟨0, 5⟩, ⟨5, 5⟩, ⟨0, 0⟩, ⟨5, 0⟩, true⟩

/-- The in-use box with `top_left` (2,2) and `bottom_right` (7,7). -/
def unionDemoB : BoundingBox := ⟨⟨2, 7⟩, ⟨7, 7⟩, ⟨2, 2⟩, ⟨7, 2⟩, true⟩

/-- C2: evaluating `union` at the spec's scenario shows the result's
`top_right` is (7,2), not the envelope corner (7,0): the source computes
`top_right.y` with `max` where the envelope needs `min`
(its own `Line.update_bounding_box` uses `min` there). -/
theorem C2_union_envelope_bug :
    unionDemoA.union unionDemoB = ⟨⟨0, 7⟩, ⟨7, 7⟩, ⟨0, 0⟩, ⟨7, 2⟩, true⟩ ∧
    (unionDemoA.union unionDemoB).top_right ≠ ⟨7, 0⟩ := by
  decide

/-- A structurally nonzero box that is not in use. -/
def unusedBoxA : BoundingBox := ⟨⟨0, 0⟩, ⟨0, 0⟩, ⟨1, 1⟩, ⟨0, 0⟩, false⟩

/-- C3 counterexample: two structurally different unused boxes break
commutativity, because `union` returns `self` unchanged whenever the
argument is unused: `union(a,b) = a` but `union(b,a) = b`. -/
theorem C3_comm_counterexample :
    unusedBoxA.union bbDefault = unusedBoxA ∧
    bbDefault.union unusedBoxA = bbDefault ∧
    unusedBoxA.union bbDefault ≠ bbDefault.union unusedBoxA := by
  decide

/-- C3 (amended): `union` is commutative whenever at least one operand is
in use (unused operands are returned unchanged, so two distinct unused
boxes need not commute); the unused box is a right identity exactly;
`union` is associative for all boxes. -/
theorem C3_union_monoid_amended :
    (∀ a b : BoundingBox, a.in_use = true ∨ b.in_use = true →
      a.union b = b.union a) ∧
    (∀ a u : BoundingBox, u.in_use = false → a.union u = a) ∧
    (∀ a b c : BoundingBox, (a.union b).union c = a.union (b.union c)) :=
  ⟨union_comm_of_in_use, union_unused_right, union_assoc⟩

/-- C3 witness: the amended laws applied at concrete boxes. -/
theorem C3_union_monoid_witness :
    unionDemoA.union bbDefault = unionDemoA ∧
    unionDemoA.union unionDemoB = unionDemoB.union unionDemoA :=
  ⟨C3_union_monoid_amended.2.1 unionDemoA bbDefault rfl,
   C3_union_monoid_amended.1 unionDemoA unionDemoB (Or.inl rfl)⟩

/-- The in-use box with corners (0,0)-(10,10). -/
def demoBox10 : BoundingBox := ⟨⟨0, 10⟩, ⟨10, 10⟩, ⟨0, 0⟩, ⟨10, 0⟩, true⟩

/-- C4: an unused box contains every point; an in-use box contains exactly
the points with x in [left, right) and y in [top, bottom), so (5,5) is in
the (0,0)-(10,10) box while (10,10), (0,10) and (-1,5) are not. -/
theorem C4_contains_half_open :
    (∀ (b : BoundingBox) (p : Point), b.in_use = true →
      (b.contains p = true ↔
        (b.bottom_left.x ≤ p.x ∧ p.x < b.top_right.x ∧
         b.top_left.y ≤ p.y ∧ p.y < b.bottom_right.y))) ∧
    (∀ (b : BoundingBox) (p : Point), b.in_use = false →
      b.contains p = true) ∧
    demoBox10.contains ⟨5, 5⟩ = true ∧
    demoBox10.contains ⟨10, 10⟩ = false ∧
    demoBox10.contains ⟨0, 10⟩ = false ∧
    demoBox10.contains ⟨-1, 5⟩ = false := by
  refine ⟨?_, ?_, by decide, by decide, by decide, by decide⟩
  · intro b p hb
    unfold BoundingBox.contains
    rw [if_neg (by rw [hb]; simp)]
    simp [and_assoc]
  · intro b p hb
    unfold BoundingBox.contains
    rw [if_pos hb]

/-- C4 witness: the half-open characterisation and unused-box rule applied
at concrete boxes and points. -/
theorem C4_contains_witness :
    (demoBox10.contains ⟨5, 5⟩ = true ↔
      (demoBox10.bottom_left.x ≤ 5 ∧ (5 : Int) < demoBox10.top_right.x ∧
       demoBox10.top_left.y ≤ 5 ∧ (5 : Int) < demoBox10.bottom_right.y)) ∧
    bbDefault.contains ⟨3, 4⟩ = true :=
  ⟨C4_contains_half_open.1 demoBox10 ⟨5, 5⟩ rfl,
   C4_contains_half_open.2.1 bbDefault ⟨3, 4⟩ rfl⟩

/-- A diagonal line from (0,0) to (2,2). -/
def demoLine : Shape := .line ⟨0, 0⟩ ⟨2, 2⟩ ⟨0, 0, 0, 0⟩

/-- C5: the midpoint (1,1) lies strictly between the endpoints of the
(0,0)-(2,2) line, yet `contains` returns false: the between test passes
(dot = 2 > 0) but the source's "cross product" `v.x*w.y + v.y*w.x` (a plus
where the cross product needs a minus) evaluates to 2, not 0. -/
theorem C5_line_contains_bug :
    Shape.contains demoLine ⟨1, 1⟩ = false ∧
    dotP ⟨1, 1⟩ ⟨1, 1⟩ > 0 ∧
    crossP ⟨1, 1⟩ ⟨1, 1⟩ ≠ 0 := by
  decide

/-- C6 counterexample: reaching end-of-input at depth > 0 does not fail
the parse: the unterminated group is silently closed, both when empty and
when it holds shapes. -/
theorem C6_unterminated_group_counterexample :
    parse_drw "begin".data = .ok [Shape.group []] ∧
    parse_drw "begin\nline 0 0 1 1 0,0,0,0".data =
      .ok [Shape.group [Shape.line ⟨0, 0⟩ ⟨1, 1⟩ ⟨0, 0, 0, 0⟩]] :=
  ⟨rfl, rfl⟩

/-- C6 (amended): a malformed shape line — wrong token count, unknown
keyword, non-numeric coordinate, or a colour with the wrong channel count —
fails the whole parse with the corresponding error, and any failed parse
leaves the previously loaded document untouched; end-of-input at depth > 0,
however, is not an error (see the counterexample). -/
theorem C6_parse_failures_amended :
    parse_drw "line 1 2 3".data = .error .indexError ∧
    parse_drw "foo 1 2".data = .error .attrError ∧
    parse_drw "line a 2 3 4 0,0,0,0".data = .error .valueError ∧
    parse_drw "line 1 2 3 4 0,0,0".data = .error .typeError ∧
    (∀ (current : List Shape) (s : Str) (e : PErr),
      parse_drw s = .error e → open_file current s = current) := by
  refine ⟨rfl, rfl, rfl, rfl, ?_⟩
  intro current s e h
  unfold open_file
  rw [h]

/-- C6 witness: a failed parse leaves the concrete previous document in
place. -/
theorem C6_parse_failures_witness :
    open_file [demoLine] "line 1 2 3".data = [demoLine] :=
  C6_parse_failures_amended.2.2.2.2 [demoLine] "line 1 2 3".data
    .indexError rfl

/-- C7 counterexample: a stray `end` at depth 0 does not fail the parse; it
returns the shapes before it and silently discards the following lines —
here a valid line that parses on its own is dropped. -/
theorem C7_stray_end_counterexample :
    parse_drw "end\nline 1 2 3 4 0,0,0,0".data = .ok [] ∧
    parse_drw "line 1 2 3 4 0,0,0,0".data =
      .ok [Shape.line ⟨1, 2⟩ ⟨3, 4⟩ ⟨0, 0, 0, 0⟩] :=
  ⟨rfl, rfl⟩

/-- C7 (amended): a stray `end` at depth 0 acts as end-of-input: the parse
succeeds with exactly the shapes serialised before it, and every line after
it is silently discarded. -/
theorem C7_stray_end_amended (seq : List Shape) (rest : List Str) :
    parseLinesTop (seqLines seq ++ endKw :: rest) = .ok seq :=
  parseLinesTop_seqLines_end seq rest

/-- One group holding one line. -/
def demoGrouped : List Shape := [Shape.group [demoLine]]

/-- C8 counterexample: `ungroup_all` does not remove the Group wrappers:
the emptied group husk remains in the resulting sequence (and the leaf is
appended after it), so the result is not the flat leaf sequence. -/
theorem C8_ungroup_counterexample :
    ungroup_all demoGrouped = [Shape.group [], demoLine] ∧
    Shape.group [] ∈ ungroup_all demoGrouped ∧
    ungroup_all demoGrouped ≠ [demoLine] := by
  have h : ungroup_all demoGrouped = [Shape.group [], demoLine] := by
    simp [demoGrouped, demoLine, ungroup_all_cons_group,
      ungroup_all_cons_line, ungroup_all_nil]
  refine ⟨h, by rw [h]; simp, by rw [h]; simp [demoLine]⟩

/-- C8 (amended): `ungroup_all` empties every group at every depth (the
iteration visits appended members too) but leaves the empty group husks in
the sequence; the non-group elements of the result are exactly the leaf
shapes of the input, as a multiset. -/
theorem C8_ungroup_all_amended (seq : List Shape) :
    (ungroup_all seq).all emptiedOk = true ∧
    ((ungroup_all seq).filter (fun s => !s.isGroup)).Perm (leavesList seq) :=
  ⟨ungroup_all_emptied (qm seq) seq (Nat.le_refl _),
   ungroup_all_leaves (qm seq) seq (Nat.le_refl _)⟩

/-- C9 counterexample: after `move`, the stored bounding box of a line is
unchanged and no longer the envelope of the translated geometry: moving
the (0,0)-(1,1) line by (5,5) leaves the old (0,0)-(1,1) box behind. -/
theorem C9_move_stale_bb_counterexample :
    ((mkMLine ⟨0, 0⟩ ⟨1, 1⟩ ⟨0, 0, 0, 0⟩).move 5 5)._bb ≠
      lineBB ((mkMLine ⟨0, 0⟩ ⟨1, 1⟩ ⟨0, 0, 0, 0⟩).move 5 5).start
        ((mkMLine ⟨0, 0⟩ ⟨1, 1⟩ ⟨0, 0, 0, 0⟩).move 5 5).stop := by
  decide

/-- C9 (amended): `move` translates the defining geometry by (dx,dy) and
leaves colour and corner style unchanged — and it composes additively with
the draft composite recursing into children — but it does NOT recompute the
bounding box: the stored box keeps its pre-move value. -/
theorem C9_move_amended :
    (∀ (a b : Point) (c : Colour) (dx dy : Int),
      (mkMLine a b c).move dx dy =
        ⟨⟨a.x + dx, a.y + dy⟩, ⟨b.x + dx, b.y + dy⟩, c, lineBB a b⟩) ∧
    (∀ (a b : Point) (c : Colour) (k : Corner) (dx dy : Int),
      (mkMRect a b c k).move dx dy =
        ⟨⟨a.x + dx, a.y + dy⟩, ⟨b.x + dx, b.y + dy⟩, c, k, rectBB a b⟩) ∧
    (∀ s : IgShape, s.move 0 0 = s) ∧
    (∀ (s : IgShape) (a b c d : Int),
      (s.move a b).move c d = s.move (a + c) (b + d)) := by
  refine ⟨?_, ?_, igShape_move_zero, igShape_move_move⟩
  · intro a b c dx dy
    rfl
  · intro a b c k dx dy
    rfl

/-- C10: a line's own endpoints fail its hit test: at an endpoint one of
the difference vectors is zero, the dot product is 0, and the strict
`dot > 0` test rejects the point. -/
theorem C10_line_endpoints_excluded (a b : Point) (c : Colour) :
    Shape.contains (.line a b c) a = false ∧
    Shape.contains (.line a b c) b = false := by
  constructor
  · simp [Shape.contains, lineContains, dotP]
  · simp [Shape.contains, lineContains, dotP]
